import Mathlib

set_option maxHeartbeats 1000000

/-!
Verification of the vbz compression codec: a shallow embedding of the
delta + zig-zag pre-transform, the StreamVByte integer packing (layout
versions V0 and V1), the zstd post-compression stage (treated as a
black-box byte-stream compressor, as the repository does), and the
codec facade with its sized framing, size bound and error model.

Bytes are modelled as natural numbers below 256; a W-byte two's
complement integer is modelled as its unsigned representation, a
natural number below 256^W.
-/

/-- `leBytes k v` is the list of the `k` low-order bytes of `v`,
little-endian (least significant byte first). -/
def leBytes : Nat → Nat → List Nat
  | 0, _ => []
  | k + 1, v => v % 256 :: leBytes k (v / 256)

/-- Read a little-endian byte list back as a natural number. -/
def fromLeBytes : List Nat → Nat
  | [] => 0
  | b :: bs => b + 256 * fromLeBytes bs

theorem leBytes_length (k v : Nat) : (leBytes k v).length = k := by
  induction k generalizing v with
  | zero => rfl
  | succ k ih => simp [leBytes, ih]

theorem leBytes_mem_lt (k v : Nat) : ∀ b ∈ leBytes k v, b < 256 := by
  induction k generalizing v with
  | zero => simp [leBytes]
  | succ k ih =>
    intro b hb
    simp only [leBytes, List.mem_cons] at hb
    rcases hb with h | h
    · omega
    · exact ih _ b h

theorem fromLeBytes_leBytes (k v : Nat) (h : v < 256 ^ k) :
    fromLeBytes (leBytes k v) = v := by
  induction k generalizing v with
  | zero =>
    simp [leBytes, fromLeBytes]
    exact (Nat.lt_one_iff.mp h).symm
  | succ k ih =>
    have hdiv : v / 256 < 256 ^ k := by
      rw [Nat.div_lt_iff_lt_mul (by norm_num)]
      calc v < 256 ^ (k + 1) := h
        _ = 256 ^ k * 256 := by ring
    simp [leBytes, fromLeBytes, ih _ hdiv, Nat.mod_add_div]

theorem leBytes_fromLeBytes (bs : List Nat) (h : ∀ b ∈ bs, b < 256) :
    leBytes bs.length (fromLeBytes bs) = bs := by
  induction bs with
  | nil => rfl
  | cons b rest ih =>
    have hb : b < 256 := h b (by simp)
    have hmod : (b + 256 * fromLeBytes rest) % 256 = b := by omega
    have hdiv : (b + 256 * fromLeBytes rest) / 256 = fromLeBytes rest := by omega
    simp only [List.length_cons, leBytes, fromLeBytes, hmod, hdiv]
    rw [ih (fun x hx => h x (by simp [hx]))]

theorem fromLeBytes_lt (bs : List Nat) (k : Nat) (h : ∀ b ∈ bs, b < 256)
    (hk : bs.length ≤ k) : fromLeBytes bs < 256 ^ k := by
  induction bs generalizing k with
  | nil => exact Nat.pos_pow_of_pos k (by omega)
  | cons b rest ih =>
    cases k with
    | zero => simp at hk
    | succ k =>
      have hb : b < 256 := h b (by simp)
      have hr : fromLeBytes rest < 256 ^ k :=
        ih k (fun x hx => h x (by simp [hx])) (by simpa using hk)
      calc fromLeBytes (b :: rest) = b + 256 * fromLeBytes rest := rfl
        _ < 256 + 256 * fromLeBytes rest := by omega
        _ ≤ 256 + 256 * (256 ^ k - 1) := by
            have : fromLeBytes rest ≤ 256 ^ k - 1 := by omega
            omega
        _ ≤ 256 ^ (k + 1) := by
            have : 1 ≤ 256 ^ k := Nat.pos_pow_of_pos k (by norm_num)
            rw [pow_succ]
            omega

/-- Split a byte list into groups of `W` bytes and read each group as a
little-endian value (fuel-based recursion; the fuel is the list length). -/
def b2vGo (W : Nat) : Nat → List Nat → List Nat
  | 0, _ => []
  | _ + 1, [] => []
  | fuel + 1, b :: rest =>
    fromLeBytes (b :: rest.take (W - 1)) :: b2vGo W fuel (rest.drop (W - 1))

/-- Reinterpret a byte buffer as a list of `W`-byte little-endian values. -/
def bytesToValues (W : Nat) (l : List Nat) : List Nat := b2vGo W l.length l

/-- Serialize a list of values as `W` little-endian bytes each. -/
def valuesToBytes (W : Nat) : List Nat → List Nat
  | [] => []
  | v :: vs => leBytes W v ++ valuesToBytes W vs

theorem b2vGo_irrel (W : Nat) :
    ∀ (f₁ : Nat) (f₂ : Nat) (l : List Nat), l.length ≤ f₁ → l.length ≤ f₂ →
      b2vGo W f₁ l = b2vGo W f₂ l := by
  intro f₁
  induction f₁ with
  | zero =>
    intro f₂ l h₁ h₂
    have : l = [] := List.eq_nil_of_length_eq_zero (by omega)
    subst this
    cases f₂ <;> rfl
  | succ f ih =>
    intro f₂ l h₁ h₂
    cases l with
    | nil => cases f₂ <;> rfl
    | cons b rest =>
      cases f₂ with
      | zero => simp at h₂
      | succ f₂ =>
        simp only [b2vGo]
        congr 1
        apply ih
        · simp only [List.length_drop]
          simp only [List.length_cons] at h₁
          omega
        · simp only [List.length_drop]
          simp only [List.length_cons] at h₂
          omega

theorem bytesToValues_nil (W : Nat) : bytesToValues W [] = [] := rfl

theorem bytesToValues_cons (W : Nat) (b : Nat) (rest : List Nat) :
    bytesToValues W (b :: rest)
      = fromLeBytes (b :: rest.take (W - 1)) :: bytesToValues W (rest.drop (W - 1)) := by
  show b2vGo W (rest.length + 1) (b :: rest) = _
  simp only [b2vGo]
  congr 1
  apply b2vGo_irrel
  · simp only [List.length_drop]; omega
  · exact Nat.le_refl _

theorem bytesToValues_valuesToBytes (W : Nat) (hW : 0 < W) (vs : List Nat)
    (h : ∀ v ∈ vs, v < 256 ^ W) :
    bytesToValues W (valuesToBytes W vs) = vs := by
  induction vs with
  | nil => rfl
  | cons v vs ih =>
    obtain ⟨w, rfl⟩ : ∃ w, W = w + 1 := ⟨W - 1, by omega⟩
    have hv : v < 256 ^ (w + 1) := h v (by simp)
    have hlen : (leBytes w (v / 256)).length = w := leBytes_length w _
    simp only [valuesToBytes, leBytes, List.cons_append]
    rw [bytesToValues_cons]
    simp only [Nat.add_sub_cancel]
    rw [List.take_left' hlen, List.drop_left' hlen]
    have : fromLeBytes (v % 256 :: leBytes w (v / 256)) = v := by
      have := fromLeBytes_leBytes (w + 1) v hv
      simpa [leBytes] using this
    rw [this, ih (fun x hx => h x (by simp [hx]))]

theorem valuesToBytes_bytesToValues (W : Nat) (hW : 0 < W) :
    ∀ (n : Nat) (l : List Nat), l.length ≤ n → W ∣ l.length → (∀ b ∈ l, b < 256) →
      valuesToBytes W (bytesToValues W l) = l := by
  intro n
  induction n with
  | zero =>
    intro l hn _ _
    have : l = [] := List.eq_nil_of_length_eq_zero (by omega)
    subst this; rfl
  | succ n ih =>
    intro l hn hdvd hb
    cases l with
    | nil => rfl
    | cons b rest =>
      have hWlen : W ≤ (b :: rest).length := by
        rcases hdvd with ⟨k, hk⟩
        rcases k with _ | k
        · simp at hk
        · have h1 : W * 1 ≤ W * (k + 1) := Nat.mul_le_mul_left W (by omega)
          rw [Nat.mul_one] at h1
          omega
      have hchunk : (b :: rest.take (W - 1)).length = W := by
        simp only [List.length_cons, List.length_take]
        simp only [List.length_cons] at hWlen
        omega
      rw [bytesToValues_cons]
      show leBytes W (fromLeBytes (b :: rest.take (W - 1)))
            ++ valuesToBytes W (bytesToValues W (rest.drop (W - 1))) = b :: rest
      have hbytes : ∀ x ∈ b :: rest.take (W - 1), x < 256 := by
        intro x hx
        rcases List.mem_cons.mp hx with h | h
        · exact h ▸ hb b (by simp)
        · exact hb x (by simp [List.mem_of_mem_take h])
      have h1 : leBytes W (fromLeBytes (b :: rest.take (W - 1))) = b :: rest.take (W - 1) := by
        have := leBytes_fromLeBytes (b :: rest.take (W - 1)) hbytes
        rwa [hchunk] at this
      have h2 : valuesToBytes W (bytesToValues W (rest.drop (W - 1))) = rest.drop (W - 1) := by
        apply ih
        · simp only [List.length_drop]
          simp only [List.length_cons] at hn
          omega
        · simp only [List.length_drop]
          have h5 : W ∣ (b :: rest).length - W := Nat.dvd_sub' hdvd dvd_rfl
          have h6 : (b :: rest).length - W = rest.length - (W - 1) := by
            simp only [List.length_cons]; omega
          rwa [h6] at h5
        · intro x hx
          exact hb x (by simp [List.mem_of_mem_drop hx])
      rw [h1, h2]
      simp only [List.cons_append]
      congr 1
      have : W - 1 ≤ rest.length := by
        simp only [List.length_cons] at hWlen; omega
      exact List.take_append_drop _ rest

theorem bytesToValues_length (W : Nat) (hW : 0 < W) :
    ∀ (n : Nat) (l : List Nat), l.length ≤ n →
      (bytesToValues W l).length = (l.length + W - 1) / W := by
  intro n
  induction n with
  | zero =>
    intro l hn
    have : l = [] := List.eq_nil_of_length_eq_zero (by omega)
    subst this
    have h0 : (0 + W - 1) / W = 0 := Nat.div_eq_of_lt (by omega)
    simp only [bytesToValues_nil, List.length_nil, h0]
  | succ n ih =>
    intro l hn
    cases l with
    | nil =>
      have h0 : (0 + W - 1) / W = 0 := Nat.div_eq_of_lt (by omega)
      simp only [bytesToValues_nil, List.length_nil, h0]
    | cons b rest =>
      rw [bytesToValues_cons]
      simp only [List.length_cons]
      have hdrop : (rest.drop (W - 1)).length = rest.length - (W - 1) := by
        simp [List.length_drop]
      rw [ih (rest.drop (W - 1)) (by simp only [List.length_cons] at hn; omega)]
      rw [hdrop]
      rcases Nat.lt_or_ge rest.length (W - 1) with hc | hc
      · have h1 : rest.length - (W - 1) = 0 := by omega
        have h2 : rest.length + 1 + W - 1 = rest.length + 1 + (W - 1) := by omega
        rw [h1]
        have h3 : (0 + W - 1) / W = 0 := Nat.div_eq_of_lt (by omega)
        rw [h3]
        have h4 : rest.length + 1 + W - 1 = (rest.length + 1 - 1) + 1 * W := by omega
        rw [h4, Nat.add_mul_div_right _ _ hW]
        have : (rest.length + 1 - 1) / W = 0 := Nat.div_eq_of_lt (by omega)
        omega
      · have h1 : rest.length - (W - 1) + W - 1 = rest.length := by omega
        rw [h1]
        have h2 : rest.length + 1 + W - 1 = rest.length + 1 * W := by omega
        rw [h2, Nat.add_mul_div_right _ _ hW]

theorem bytesToValues_mem_lt (W : Nat) (hW : 0 < W) :
    ∀ (n : Nat) (l : List Nat), l.length ≤ n → (∀ b ∈ l, b < 256) →
      ∀ v ∈ bytesToValues W l, v < 256 ^ W := by
  intro n
  induction n with
  | zero =>
    intro l hn _
    have : l = [] := List.eq_nil_of_length_eq_zero (by omega)
    subst this
    simp [bytesToValues_nil]
  | succ n ih =>
    intro l hn hb
    cases l with
    | nil => simp [bytesToValues_nil]
    | cons b rest =>
      rw [bytesToValues_cons]
      intro v hv
      rcases List.mem_cons.mp hv with h | h
      · subst h
        apply fromLeBytes_lt
        · intro x hx
          rcases List.mem_cons.mp hx with h | h
          · exact h ▸ hb b (by simp)
          · exact hb x (by simp [List.mem_of_mem_take h])
        · simp only [List.length_cons, List.length_take]
          omega
      · refine ih (rest.drop (W - 1)) ?_ ?_ v h
        · simp only [List.length_drop]
          simp only [List.length_cons] at hn
          omega
        · intro x hx
          exact hb x (by simp [List.mem_of_mem_drop hx])

theorem valuesToBytes_length (W : Nat) (vs : List Nat) :
    (valuesToBytes W vs).length = vs.length * W := by
  induction vs with
  | nil => simp [valuesToBytes]
  | cons v vs ih =>
    simp only [valuesToBytes, List.length_append, leBytes_length, List.length_cons, ih]
    ring

theorem valuesToBytes_mem_lt (W : Nat) (vs : List Nat) :
    ∀ b ∈ valuesToBytes W vs, b < 256 := by
  induction vs with
  | nil => simp [valuesToBytes]
  | cons v vs ih =>
    intro b hb
    simp only [valuesToBytes, List.mem_append] at hb
    rcases hb with h | h
    · exact leBytes_mem_lt W v b h
    · exact ih b h

/-!  The delta + zig-zag pre-transform (spec section 4.2).

Modelled from the spec: the repository's implementation file for the
pre-transform is not present under `src/`; the definitions below follow
the spec's formulas. `M = 256 ^ W` is the modulus of `W`-byte two's
complement arithmetic; a signed value `s` is represented by its
unsigned representative `v < M` (`v = s mod M`).  The spec's bitwise
zig-zag `u = (s << 1) ^ (s >> (W*8 - 1))` equals `2*s` for `s ≥ 0`
(that is `2*v < M`) and `2*|s| - 1 = 2*(M - v) - 1` for `s < 0`; the
inverse `s = (u >> 1) ^ -(u & 1)` equals `u / 2` for even `u` and
`-(u/2) - 1`, represented by `M - 1 - u/2`, for odd `u`. -/

/-- Forward zig-zag map at modulus `M`. -/
def zigzagFwd (M v : Nat) : Nat := if 2 * v < M then 2 * v else 2 * (M - v) - 1

/-- Inverse zig-zag map at modulus `M`. -/
def zigzagInv (M u : Nat) : Nat := if u % 2 = 0 then u / 2 else M - 1 - u / 2

/-- Forward delta: each element minus its predecessor, with
two's-complement wrap-around at modulus `M` (`prev` seeds the chain). -/
def deltaFwdAux (M : Nat) : Nat → List Nat → List Nat
  | _, [] => []
  | prev, x :: rest => (x + M - prev) % M :: deltaFwdAux M x rest

/-- Forward delta over a buffer: the first element is kept as is. -/
def deltaFwd (M : Nat) (xs : List Nat) : List Nat := deltaFwdAux M 0 xs

/-- Inverse delta (prefix sum) with wrap-around at modulus `M`. -/
def deltaInvAux (M : Nat) : Nat → List Nat → List Nat
  | _, [] => []
  | prev, d :: rest => (prev + d) % M :: deltaInvAux M ((prev + d) % M) rest

/-- Inverse delta over a buffer. -/
def deltaInv (M : Nat) (ds : List Nat) : List Nat := deltaInvAux M 0 ds

/-- The full pre-transform: delta then zig-zag, elementwise. -/
def preTransformFwd (M : Nat) (xs : List Nat) : List Nat :=
  (deltaFwd M xs).map (zigzagFwd M)

/-- The declared inverse: zig-zag inverse first, then prefix sum. -/
def preTransformInv (M : Nat) (us : List Nat) : List Nat :=
  deltaInv M (us.map (zigzagInv M))

theorem zigzagInv_zigzagFwd (M v : Nat) (h : v < M) :
    zigzagInv M (zigzagFwd M v) = v := by
  unfold zigzagFwd zigzagInv
  split <;> split <;> omega

theorem zigzagFwd_zigzagInv (M u : Nat) (h : u < M) :
    zigzagFwd M (zigzagInv M u) = u := by
  unfold zigzagFwd zigzagInv
  split <;> split <;> omega

theorem zigzagFwd_lt (M v : Nat) (h : v < M) : zigzagFwd M v < M := by
  unfold zigzagFwd
  split <;> omega

theorem zigzagInv_lt (M u : Nat) (hM : 0 < M) (h : u < M) : zigzagInv M u < M := by
  unfold zigzagInv
  split <;> omega

theorem deltaFwdAux_length (M : Nat) (prev : Nat) (xs : List Nat) :
    (deltaFwdAux M prev xs).length = xs.length := by
  induction xs generalizing prev with
  | nil => rfl
  | cons x rest ih => simp [deltaFwdAux, ih]

theorem deltaInvAux_length (M : Nat) (prev : Nat) (ds : List Nat) :
    (deltaInvAux M prev ds).length = ds.length := by
  induction ds generalizing prev with
  | nil => rfl
  | cons d rest ih => simp [deltaInvAux, ih]

theorem deltaFwdAux_mem_lt (M : Nat) (hM : 0 < M) (prev : Nat) (xs : List Nat) :
    ∀ d ∈ deltaFwdAux M prev xs, d < M := by
  induction xs generalizing prev with
  | nil => simp [deltaFwdAux]
  | cons x rest ih =>
    intro d hd
    rcases List.mem_cons.mp hd with h | h
    · exact h ▸ Nat.mod_lt _ hM
    · exact ih x d h

theorem deltaInvAux_mem_lt (M : Nat) (hM : 0 < M) (prev : Nat) (ds : List Nat) :
    ∀ x ∈ deltaInvAux M prev ds, x < M := by
  induction ds generalizing prev with
  | nil => simp [deltaInvAux]
  | cons d rest ih =>
    intro x hx
    rcases List.mem_cons.mp hx with h | h
    · exact h ▸ Nat.mod_lt _ hM
    · exact ih _ x h

theorem deltaInvAux_deltaFwdAux (M : Nat) (xs : List Nat) :
    ∀ prev, prev < M → (∀ x ∈ xs, x < M) →
      deltaInvAux M prev (deltaFwdAux M prev xs) = xs := by
  induction xs with
  | nil => intro prev _ _; rfl
  | cons x rest ih =>
    intro prev hprev hb
    have hx : x < M := hb x (by simp)
    have hhead : (prev + (x + M - prev) % M) % M = x := by
      rw [Nat.add_mod_mod]
      have : prev + (x + M - prev) = x + M := by omega
      rw [this, Nat.add_mod_right, Nat.mod_eq_of_lt hx]
    simp only [deltaFwdAux, deltaInvAux, hhead]
    rw [ih x hx (fun y hy => hb y (by simp [hy]))]

theorem deltaFwdAux_deltaInvAux (M : Nat) (ds : List Nat) :
    ∀ prev, prev < M → (∀ d ∈ ds, d < M) →
      deltaFwdAux M prev (deltaInvAux M prev ds) = ds := by
  induction ds with
  | nil => intro prev _ _; rfl
  | cons d rest ih =>
    intro prev hprev hb
    have hM : 0 < M := by omega
    have hd : d < M := hb d (by simp)
    have hhead : ((prev + d) % M + M - prev) % M = d := by
      have h1 : (prev + d) % M + M - prev = (prev + d) % M + (M - prev) := by omega
      rw [h1, Nat.mod_add_mod]
      have h2 : prev + d + (M - prev) = d + M := by omega
      rw [h2, Nat.add_mod_right, Nat.mod_eq_of_lt hd]
    simp only [deltaInvAux, deltaFwdAux, hhead]
    rw [ih _ (Nat.mod_lt _ hM) (fun y hy => hb y (by simp [hy]))]

theorem preTransformInv_preTransformFwd (M : Nat) (hM : 0 < M) (xs : List Nat)
    (h : ∀ x ∈ xs, x < M) :
    preTransformInv M (preTransformFwd M xs) = xs := by
  unfold preTransformInv preTransformFwd
  rw [List.map_map]
  have hmap : (deltaFwd M xs).map (zigzagInv M ∘ zigzagFwd M) = deltaFwd M xs := by
    have h1 : (deltaFwd M xs).map (zigzagInv M ∘ zigzagFwd M) = (deltaFwd M xs).map id := by
      apply List.map_congr_left
      intro d hd
      exact zigzagInv_zigzagFwd M d (deltaFwdAux_mem_lt M hM 0 xs d hd)
    rw [h1, List.map_id]
  rw [hmap]
  exact deltaInvAux_deltaFwdAux M xs 0 hM h

theorem preTransformFwd_preTransformInv (M : Nat) (hM : 0 < M) (us : List Nat)
    (h : ∀ u ∈ us, u < M) :
    preTransformFwd M (preTransformInv M us) = us := by
  unfold preTransformInv preTransformFwd
  have hmem : ∀ x ∈ us.map (zigzagInv M), x < M := by
    intro x hx
    rcases List.mem_map.mp hx with ⟨u, hu, rfl⟩
    exact zigzagInv_lt M u hM (h u hu)
  unfold deltaFwd deltaInv
  rw [deltaFwdAux_deltaInvAux M (us.map (zigzagInv M)) 0 hM hmem]
  rw [List.map_map]
  have h1 : us.map (zigzagFwd M ∘ zigzagInv M) = us.map id := by
    apply List.map_congr_left
    intro u hu
    exact zigzagFwd_zigzagInv M u (h u hu)
  rw [h1, List.map_id]

theorem preTransformFwd_length (M : Nat) (xs : List Nat) :
    (preTransformFwd M xs).length = xs.length := by
  simp [preTransformFwd, deltaFwd, deltaFwdAux_length]

theorem preTransformInv_length (M : Nat) (us : List Nat) :
    (preTransformInv M us).length = us.length := by
  simp [preTransformInv, deltaInv, deltaInvAux_length]

theorem preTransformFwd_mem_lt (M : Nat) (hM : 0 < M) (xs : List Nat) :
    ∀ u ∈ preTransformFwd M xs, u < M := by
  intro u hu
  rcases List.mem_map.mp hu with ⟨d, hd, rfl⟩
  exact zigzagFwd_lt M d (deltaFwdAux_mem_lt M hM 0 xs d hd)

theorem preTransformInv_mem_lt (M : Nat) (hM : 0 < M) (us : List Nat) :
    ∀ x ∈ preTransformInv M us, x < M := by
  intro x hx
  exact deltaInvAux_mem_lt M hM 0 _ x hx

/-!  StreamVByte core (spec section 4.1).

Modelled from the spec: the repository's `v0/vbz_streamvbyte.cpp` and
`v1/vbz_streamvbyte.cpp` are not present under `src/`; the definitions
below follow the spec's layout description.  Each unsigned 32-bit value
gets a 2-bit code `c` (the value occupies `c + 1` data bytes); V0 packs
four codes per key byte, low code in the low two bits, in natural
order; V1 packs the same 2-bit codes as a contiguous little-endian
bit stream rounded up to a byte.  The key stream precedes the data
stream, which holds the `c + 1` low-order little-endian bytes of each
value. -/

/-- The 2-bit length code of a 32-bit value: the number of bytes
needed to store it, minus one. -/
def svbCode (v : Nat) : Nat :=
  if v < 256 then 0 else if v < 65536 then 1 else if v < 16777216 then 2 else 3

/-- V0 key packing: four 2-bit codes per byte, low code in the low
two bits; a partial last byte's unused high bits are zero. -/
def packKeys : List Nat → List Nat
  | [] => []
  | [c0] => [c0]
  | [c0, c1] => [c0 + 4 * c1]
  | [c0, c1, c2] => [c0 + 4 * c1 + 16 * c2]
  | c0 :: c1 :: c2 :: c3 :: rest => (c0 + 4 * c1 + 16 * c2 + 64 * c3) :: packKeys rest

/-- V0 key unpacking: read `n` 2-bit codes, four per byte, low first. -/
def unpackKeys : Nat → List Nat → List Nat
  | 0, _ => []
  | _ + 1, [] => []
  | n + 1, b :: bs =>
    List.take (n + 1) [b % 4, b / 4 % 4, b / 16 % 4, b / 64 % 4] ++ unpackKeys (n + 1 - 4) bs

/-- The two bits of one code, low bit first. -/
def codeBits (c : Nat) : List Nat := [c % 2, c / 2 % 2]

/-- The V1 key bit stream: two bits per code, in value order. -/
def keyBits : List Nat → List Nat
  | [] => []
  | c :: cs => codeBits c ++ keyBits cs

/-- Pack a little-endian bit stream into bytes, eight bits per byte,
low bit first; a partial last byte is zero-padded. -/
def bytesOfBits : List Nat → List Nat
  | [] => []
  | b0 :: b1 :: b2 :: b3 :: b4 :: b5 :: b6 :: b7 :: rest =>
    (b0 + 2 * b1 + 4 * b2 + 8 * b3 + 16 * b4 + 32 * b5 + 64 * b6 + 128 * b7)
      :: bytesOfBits rest
  | bs => [bs.foldr (fun b acc => b % 2 + 2 * acc) 0]

/-- V1 key packing: the bit-packed 2-bit code stream, rounded up to a
byte boundary. -/
def packKeysV1 (cs : List Nat) : List Nat := bytesOfBits (keyBits cs)

/-- The eight bits of one byte, low bit first. -/
def bitsOfByte (b : Nat) : List Nat :=
  [b % 2, b / 2 % 2, b / 4 % 2, b / 8 % 2, b / 16 % 2, b / 32 % 2, b / 64 % 2, b / 128 % 2]

/-- Unpack a byte stream into its little-endian bit stream. -/
def bitsOfBytes : List Nat → List Nat
  | [] => []
  | b :: bs => bitsOfByte b ++ bitsOfBytes bs

/-- Group a bit stream into 2-bit codes, low bit first. -/
def codesOfBits : List Nat → List Nat
  | b0 :: b1 :: rest => (b0 % 2 + 2 * (b1 % 2)) :: codesOfBits rest
  | _ => []

/-- V1 key unpacking: walk the key bit stream and read `n` codes. -/
def unpackKeysV1 (n : Nat) (keys : List Nat) : List Nat :=
  (codesOfBits (bitsOfBytes keys)).take n

/-- The StreamVByte data stream: the `svbCode v + 1` low-order
little-endian bytes of each value, concatenated. -/
def svbData : List Nat → List Nat
  | [] => []
  | v :: vs => leBytes (svbCode v + 1) v ++ svbData vs

/-- Decode the data stream given the list of codes; `none` when the
codes require more data bytes than are available. -/
def decodeValues : List Nat → List Nat → Option (List Nat)
  | [], _ => some []
  | c :: cs, data =>
    if data.length < c + 1 then none
    else
      match decodeValues cs (data.drop (c + 1)) with
      | none => none
      | some vs => some (fromLeBytes (data.take (c + 1)) :: vs)

/-- StreamVByte encode: key stream (layout selected by `version`)
followed by the data stream. -/
def svbEncode (version : Nat) (vs : List Nat) : List Nat :=
  (if version = 0 then packKeys (vs.map svbCode) else packKeysV1 (vs.map svbCode))
    ++ svbData vs

/-- StreamVByte decode of `n` values: split off the key stream, unpack
the codes, then decode the data stream. -/
def svbDecode (version : Nat) (n : Nat) (src : List Nat) : Option (List Nat) :=
  let keyLen := (n + 3) / 4
  if src.length < keyLen then none
  else
    let codes := if version = 0 then unpackKeys n (src.take keyLen)
                 else unpackKeysV1 n (src.take keyLen)
    decodeValues codes (src.drop keyLen)

theorem svbCode_lt (v : Nat) : svbCode v < 4 := by
  unfold svbCode
  split <;> [omega; split <;> [omega; split <;> omega]]

theorem svbCode_bound (v : Nat) (h : v < 4294967296) : v < 256 ^ (svbCode v + 1) := by
  unfold svbCode
  split
  · norm_num; omega
  · split
    · norm_num; omega
    · split
      · norm_num; omega
      · norm_num; omega

theorem packKeys_length (cs : List Nat) :
    (packKeys cs).length = (cs.length + 3) / 4 := by
  induction cs using packKeys.induct with
  | case1 => rfl
  | case2 c0 => simp [packKeys]
  | case3 c0 c1 => simp [packKeys]
  | case4 c0 c1 c2 => simp [packKeys]
  | case5 c0 c1 c2 c3 rest ih =>
    simp only [packKeys, List.length_cons, ih]
    omega

theorem unpackKeys_packKeys (cs : List Nat) (h : ∀ c ∈ cs, c < 4) :
    unpackKeys cs.length (packKeys cs) = cs := by
  induction cs using packKeys.induct with
  | case1 => rfl
  | case2 c0 =>
    have h0 : c0 < 4 := h c0 (by simp)
    simp only [packKeys, List.length_singleton, unpackKeys]
    have : c0 % 4 = c0 := Nat.mod_eq_of_lt h0
    simp [this]
  | case3 c0 c1 =>
    have h0 : c0 < 4 := h c0 (by simp)
    have h1 : c1 < 4 := h c1 (by simp)
    simp only [packKeys, List.length_cons, List.length_singleton, unpackKeys]
    have e0 : (c0 + 4 * c1) % 4 = c0 := by omega
    have e1 : (c0 + 4 * c1) / 4 % 4 = c1 := by omega
    simp [e0, e1]
  | case4 c0 c1 c2 =>
    have h0 : c0 < 4 := h c0 (by simp)
    have h1 : c1 < 4 := h c1 (by simp)
    have h2 : c2 < 4 := h c2 (by simp)
    simp only [packKeys, List.length_cons, List.length_singleton, unpackKeys]
    have e0 : (c0 + 4 * c1 + 16 * c2) % 4 = c0 := by omega
    have e1 : (c0 + 4 * c1 + 16 * c2) / 4 % 4 = c1 := by omega
    have e2 : (c0 + 4 * c1 + 16 * c2) / 16 % 4 = c2 := by omega
    simp [e0, e1, e2]
  | case5 c0 c1 c2 c3 rest ih =>
    have h0 : c0 < 4 := h c0 (by simp)
    have h1 : c1 < 4 := h c1 (by simp)
    have h2 : c2 < 4 := h c2 (by simp)
    have h3 : c3 < 4 := h c3 (by simp)
    have ih' := ih (fun c hc => h c (by simp [hc]))
    simp only [packKeys, List.length_cons, unpackKeys]
    have e0 : (c0 + 4 * c1 + 16 * c2 + 64 * c3) % 4 = c0 := by omega
    have e1 : (c0 + 4 * c1 + 16 * c2 + 64 * c3) / 4 % 4 = c1 := by omega
    have e2 : (c0 + 4 * c1 + 16 * c2 + 64 * c3) / 16 % 4 = c2 := by omega
    have e3 : (c0 + 4 * c1 + 16 * c2 + 64 * c3) / 64 % 4 = c3 := by omega
    have hlen : rest.length + 1 + 1 + 1 + 1 - 4 = rest.length := by omega
    simp only [e0, e1, e2, e3, hlen]
    rw [List.take_of_length_le (by simp)]
    simp [ih']

theorem packKeysV1_eq_packKeys (cs : List Nat) (h : ∀ c ∈ cs, c < 4) :
    packKeysV1 cs = packKeys cs := by
  unfold packKeysV1
  induction cs using packKeys.induct with
  | case1 => rfl
  | case2 c0 =>
    have h0 : c0 < 4 := h c0 (by simp)
    show bytesOfBits [c0 % 2, c0 / 2 % 2] = [c0]
    have : bytesOfBits [c0 % 2, c0 / 2 % 2]
        = [c0 % 2 % 2 + 2 * (c0 / 2 % 2 % 2 + 2 * 0)] := rfl
    rw [this]
    congr 1
    omega
  | case3 c0 c1 =>
    have h0 : c0 < 4 := h c0 (by simp)
    have h1 : c1 < 4 := h c1 (by simp)
    show bytesOfBits [c0 % 2, c0 / 2 % 2, c1 % 2, c1 / 2 % 2] = [c0 + 4 * c1]
    have : bytesOfBits [c0 % 2, c0 / 2 % 2, c1 % 2, c1 / 2 % 2]
        = [c0 % 2 % 2 + 2 * (c0 / 2 % 2 % 2 + 2 * (c1 % 2 % 2 + 2 * (c1 / 2 % 2 % 2 + 2 * 0)))] := rfl
    rw [this]
    congr 1
    omega
  | case4 c0 c1 c2 =>
    have h0 : c0 < 4 := h c0 (by simp)
    have h1 : c1 < 4 := h c1 (by simp)
    have h2 : c2 < 4 := h c2 (by simp)
    show bytesOfBits [c0 % 2, c0 / 2 % 2, c1 % 2, c1 / 2 % 2, c2 % 2, c2 / 2 % 2]
        = [c0 + 4 * c1 + 16 * c2]
    have : bytesOfBits [c0 % 2, c0 / 2 % 2, c1 % 2, c1 / 2 % 2, c2 % 2, c2 / 2 % 2]
        = [c0 % 2 % 2 + 2 * (c0 / 2 % 2 % 2 + 2 * (c1 % 2 % 2 + 2 * (c1 / 2 % 2 % 2
            + 2 * (c2 % 2 % 2 + 2 * (c2 / 2 % 2 % 2 + 2 * 0)))))] := rfl
    rw [this]
    congr 1
    omega
  | case5 c0 c1 c2 c3 rest ih =>
    have h0 : c0 < 4 := h c0 (by simp)
    have h1 : c1 < 4 := h c1 (by simp)
    have h2 : c2 < 4 := h c2 (by simp)
    have h3 : c3 < 4 := h c3 (by simp)
    have ih' := ih (fun c hc => h c (by simp [hc]))
    show bytesOfBits (c0 % 2 :: c0 / 2 % 2 :: c1 % 2 :: c1 / 2 % 2 :: c2 % 2 :: c2 / 2 % 2
          :: c3 % 2 :: c3 / 2 % 2 :: keyBits rest)
        = (c0 + 4 * c1 + 16 * c2 + 64 * c3) :: packKeys rest
    have hstep : bytesOfBits (c0 % 2 :: c0 / 2 % 2 :: c1 % 2 :: c1 / 2 % 2 :: c2 % 2
          :: c2 / 2 % 2 :: c3 % 2 :: c3 / 2 % 2 :: keyBits rest)
        = (c0 % 2 + 2 * (c0 / 2 % 2) + 4 * (c1 % 2) + 8 * (c1 / 2 % 2) + 16 * (c2 % 2)
            + 32 * (c2 / 2 % 2) + 64 * (c3 % 2) + 128 * (c3 / 2 % 2))
          :: bytesOfBits (keyBits rest) := rfl
    rw [hstep, ih']
    congr 1
    omega

theorem codesOfBits_packKeys_take (cs : List Nat) (h : ∀ c ∈ cs, c < 4) :
    (codesOfBits (bitsOfBytes (packKeys cs))).take cs.length = cs := by
  induction cs using packKeys.induct with
  | case1 => rfl
  | case2 c0 =>
    have h0 : c0 < 4 := h c0 (by simp)
    show (codesOfBits (bitsOfByte c0 ++ [])).take 1 = [c0]
    have : codesOfBits (bitsOfByte c0 ++ [])
        = (c0 % 2 % 2 + 2 * (c0 / 2 % 2 % 2)) :: (c0 / 4 % 2 % 2 + 2 * (c0 / 8 % 2 % 2))
          :: (c0 / 16 % 2 % 2 + 2 * (c0 / 32 % 2 % 2))
          :: (c0 / 64 % 2 % 2 + 2 * (c0 / 128 % 2 % 2)) :: [] := rfl
    rw [this]
    simp only [List.take_succ_cons, List.take_zero, List.cons.injEq, and_true]
    omega
  | case3 c0 c1 =>
    have h0 : c0 < 4 := h c0 (by simp)
    have h1 : c1 < 4 := h c1 (by simp)
    show (codesOfBits (bitsOfByte (c0 + 4 * c1) ++ [])).take 2 = [c0, c1]
    have : codesOfBits (bitsOfByte (c0 + 4 * c1) ++ [])
        = ((c0 + 4 * c1) % 2 % 2 + 2 * ((c0 + 4 * c1) / 2 % 2 % 2))
          :: ((c0 + 4 * c1) / 4 % 2 % 2 + 2 * ((c0 + 4 * c1) / 8 % 2 % 2))
          :: ((c0 + 4 * c1) / 16 % 2 % 2 + 2 * ((c0 + 4 * c1) / 32 % 2 % 2))
          :: ((c0 + 4 * c1) / 64 % 2 % 2 + 2 * ((c0 + 4 * c1) / 128 % 2 % 2)) :: [] := rfl
    rw [this]
    simp only [List.take_succ_cons, List.take_zero, List.cons.injEq, and_true]
    refine ⟨by omega, by omega⟩
  | case4 c0 c1 c2 =>
    have h0 : c0 < 4 := h c0 (by simp)
    have h1 : c1 < 4 := h c1 (by simp)
    have h2 : c2 < 4 := h c2 (by simp)
    show (codesOfBits (bitsOfByte (c0 + 4 * c1 + 16 * c2) ++ [])).take 3 = [c0, c1, c2]
    have : codesOfBits (bitsOfByte (c0 + 4 * c1 + 16 * c2) ++ [])
        = ((c0 + 4 * c1 + 16 * c2) % 2 % 2 + 2 * ((c0 + 4 * c1 + 16 * c2) / 2 % 2 % 2))
          :: ((c0 + 4 * c1 + 16 * c2) / 4 % 2 % 2 + 2 * ((c0 + 4 * c1 + 16 * c2) / 8 % 2 % 2))
          :: ((c0 + 4 * c1 + 16 * c2) / 16 % 2 % 2 + 2 * ((c0 + 4 * c1 + 16 * c2) / 32 % 2 % 2))
          :: ((c0 + 4 * c1 + 16 * c2) / 64 % 2 % 2 + 2 * ((c0 + 4 * c1 + 16 * c2) / 128 % 2 % 2))
          :: [] := rfl
    rw [this]
    simp only [List.take_succ_cons, List.take_zero, List.cons.injEq, and_true]
    refine ⟨by omega, by omega, by omega⟩
  | case5 c0 c1 c2 c3 rest ih =>
    have h0 : c0 < 4 := h c0 (by simp)
    have h1 : c1 < 4 := h c1 (by simp)
    have h2 : c2 < 4 := h c2 (by simp)
    have h3 : c3 < 4 := h c3 (by simp)
    have ih' := ih (fun c hc => h c (by simp [hc]))
    show (codesOfBits (bitsOfByte (c0 + 4 * c1 + 16 * c2 + 64 * c3)
          ++ bitsOfBytes (packKeys rest))).take (rest.length + 1 + 1 + 1 + 1)
        = c0 :: c1 :: c2 :: c3 :: rest
    have hstep : codesOfBits (bitsOfByte (c0 + 4 * c1 + 16 * c2 + 64 * c3)
          ++ bitsOfBytes (packKeys rest))
        = ((c0 + 4 * c1 + 16 * c2 + 64 * c3) % 2 % 2
            + 2 * ((c0 + 4 * c1 + 16 * c2 + 64 * c3) / 2 % 2 % 2))
          :: ((c0 + 4 * c1 + 16 * c2 + 64 * c3) / 4 % 2 % 2
            + 2 * ((c0 + 4 * c1 + 16 * c2 + 64 * c3) / 8 % 2 % 2))
          :: ((c0 + 4 * c1 + 16 * c2 + 64 * c3) / 16 % 2 % 2
            + 2 * ((c0 + 4 * c1 + 16 * c2 + 64 * c3) / 32 % 2 % 2))
          :: ((c0 + 4 * c1 + 16 * c2 + 64 * c3) / 64 % 2 % 2
            + 2 * ((c0 + 4 * c1 + 16 * c2 + 64 * c3) / 128 % 2 % 2))
          :: codesOfBits (bitsOfBytes (packKeys rest)) := rfl
    rw [hstep]
    simp only [List.take_succ_cons, ih', List.cons.injEq]
    refine ⟨by omega, by omega, by omega, by omega, trivial⟩

theorem unpackKeysV1_packKeysV1 (cs : List Nat) (h : ∀ c ∈ cs, c < 4) :
    unpackKeysV1 cs.length (packKeysV1 cs) = cs := by
  unfold unpackKeysV1
  rw [packKeysV1_eq_packKeys cs h]
  exact codesOfBits_packKeys_take cs h

theorem decodeValues_svbData (vs : List Nat) (h : ∀ v ∈ vs, v < 4294967296) :
    decodeValues (vs.map svbCode) (svbData vs) = some vs := by
  induction vs with
  | nil => rfl
  | cons v vs ih =>
    have hv : v < 4294967296 := h v (by simp)
    have hlen : (leBytes (svbCode v + 1) v).length = svbCode v + 1 := leBytes_length _ _
    simp only [List.map_cons, svbData, decodeValues]
    rw [List.take_left' hlen, List.drop_left' hlen]
    have hnotlt : ¬ (leBytes (svbCode v + 1) v ++ svbData vs).length < svbCode v + 1 := by
      simp only [List.length_append, hlen]
      omega
    rw [if_neg hnotlt]
    rw [ih (fun x hx => h x (by simp [hx]))]
    rw [fromLeBytes_leBytes _ _ (svbCode_bound v hv)]

theorem svbData_length_le (vs : List Nat) : (svbData vs).length ≤ 4 * vs.length := by
  induction vs with
  | nil => simp [svbData]
  | cons v vs ih =>
    have hc : svbCode v < 4 := svbCode_lt v
    simp only [svbData, List.length_append, leBytes_length, List.length_cons]
    omega

theorem svbKeys_length (version : Nat) (cs : List Nat) (h : ∀ c ∈ cs, c < 4) :
    ((if version = 0 then packKeys cs else packKeysV1 cs) : List Nat).length
      = (cs.length + 3) / 4 := by
  split
  · exact packKeys_length cs
  · rw [packKeysV1_eq_packKeys cs h]
    exact packKeys_length cs

theorem svbEncode_length_le (version : Nat) (vs : List Nat) :
    (svbEncode version vs).length ≤ (vs.length + 3) / 4 + 4 * vs.length := by
  unfold svbEncode
  have hcs : ∀ c ∈ vs.map svbCode, c < 4 := by
    intro c hc
    rcases List.mem_map.mp hc with ⟨v, _, rfl⟩
    exact svbCode_lt v
  rw [List.length_append, svbKeys_length version _ hcs, List.length_map]
  have := svbData_length_le vs
  omega

theorem svbDecode_svbEncode (version : Nat) (vs : List Nat)
    (h : ∀ v ∈ vs, v < 4294967296) :
    svbDecode version vs.length (svbEncode version vs) = some vs := by
  simp only [svbEncode, svbDecode]
  have hcs : ∀ c ∈ vs.map svbCode, c < 4 := by
    intro c hc
    rcases List.mem_map.mp hc with ⟨v, _, rfl⟩
    exact svbCode_lt v
  have hkeylen : ((if version = 0 then packKeys (vs.map svbCode)
      else packKeysV1 (vs.map svbCode)) : List Nat).length = (vs.length + 3) / 4 := by
    rw [svbKeys_length version _ hcs, List.length_map]
  rw [List.take_left' hkeylen, List.drop_left' hkeylen]
  have hnotlt : ¬ ((if version = 0 then packKeys (vs.map svbCode)
      else packKeysV1 (vs.map svbCode)) : List Nat).length
        + (svbData vs).length < (vs.length + 3) / 4 := by
    rw [hkeylen]
    omega
  rw [List.length_append, if_neg hnotlt]
  have hcodes : (if version = 0 then
        unpackKeys vs.length (if version = 0 then packKeys (vs.map svbCode)
          else packKeysV1 (vs.map svbCode))
      else unpackKeysV1 vs.length (if version = 0 then packKeys (vs.map svbCode)
          else packKeysV1 (vs.map svbCode))) = vs.map svbCode := by
    by_cases hv : version = 0
    · simp only [hv, if_pos]
      have := unpackKeys_packKeys (vs.map svbCode) hcs
      rwa [List.length_map] at this
    · simp only [hv, if_neg, ite_false]
      have := unpackKeysV1_packKeysV1 (vs.map svbCode) hcs
      rwa [List.length_map] at this
  rw [hcodes]
  exact decodeValues_svbData vs h

/-!  zstd stage (spec sections 2, 4.3, 6).

Modelled from the spec: the repository treats zstd as an external
black-box byte-stream compressor with `compress`, `decompress` and
`max_compressed_size` operations; its implementation is not part of
the repository.  The model below is a lossless byte-stream codec whose
frames carry the documented four-byte zstd magic `28 B5 2F FD`,
accept any compression level (out-of-range levels are clamped inside
the black box, so the level does not affect success), and satisfy the
usual compressed-size upper bound. -/

/-- The four-byte zstd frame magic `28 B5 2F FD`. -/
def ZSTD_MAGIC : List Nat := [40, 181, 47, 253]

/-- Black-box zstd compression: a magic-tagged frame wrapping the
payload (the level is clamped internally and cannot cause failure). -/
def zstdCompress (level : Nat) (bs : List Nat) : List Nat :=
  ZSTD_MAGIC ++ leBytes 4 bs.length ++ bs

/-- Black-box zstd decompression: checks the magic and the frame's
content size, returning the wrapped payload. -/
def zstdDecompress (bs : List Nat) : Option (List Nat) :=
  if bs.take 4 = ZSTD_MAGIC then
    if (bs.drop 8).length = fromLeBytes ((bs.drop 4).take 4) then some (bs.drop 8)
    else none
  else none

/-- Black-box zstd worst-case compressed size bound. -/
def zstdMaxCompressedSize (n : Nat) : Nat := n + n / 256 + 64

theorem zstdDecompress_zstdCompress (level : Nat) (bs : List Nat)
    (h : bs.length < 4294967296) :
    zstdDecompress (zstdCompress level bs) = some bs := by
  unfold zstdCompress zstdDecompress
  have h4 : (ZSTD_MAGIC ++ (leBytes 4 bs.length ++ bs)).take 4 = ZSTD_MAGIC := by
    rw [List.take_left' (by rfl)]
  have hdrop4 : (ZSTD_MAGIC ++ (leBytes 4 bs.length ++ bs)).drop 4
      = leBytes 4 bs.length ++ bs := by
    rw [List.drop_left' (by rfl)]
  have hdrop8 : (ZSTD_MAGIC ++ (leBytes 4 bs.length ++ bs)).drop 8 = bs := by
    have : (8 : Nat) = 4 + 4 := rfl
    rw [this, ← List.drop_drop, hdrop4, List.drop_left' (leBytes_length 4 _)]
  rw [List.append_assoc, if_pos h4, hdrop4, hdrop8]
  rw [List.take_left' (leBytes_length 4 _)]
  rw [fromLeBytes_leBytes 4 bs.length (by norm_num; omega)]
  simp

theorem zstdCompress_length (level : Nat) (bs : List Nat) :
    (zstdCompress level bs).length = bs.length + 8 := by
  simp only [zstdCompress, ZSTD_MAGIC, List.length_append, leBytes_length]
  simp
  omega

/-!  The codec facade (spec sections 3, 4.3, 6, 7).

Modelled from the spec: the repository's `vbz.h` / `vbz.cpp` are not
present under `src/`; the definitions follow the spec's pipeline.
Buffers are byte lists; the fixed 32-bit size type `vbz_size_t` bounds
byte lengths by `2^32`; error returns are negative sentinels, modelled
by `Except VbzError`. -/

/-- The error taxonomy of the library entry points (spec section 7). -/
inductive VbzError where
  | INPUT_SIZE
  | DESTINATION_TOO_SMALL
  | INPUT_CORRUPTED
  | ZSTD_ERROR
  | UNKNOWN_VERSION
deriving DecidableEq, Repr

/-- The 4-field options tuple driving one compress/decompress call. -/
structure CompressionOptions where
  perform_delta_zig_zag : Bool
  integer_size : Nat
  zstd_compression_level : Nat
  version : Nat
deriving DecidableEq, Repr

/-- The default StreamVByte layout version is V0. -/
def VBZ_DEFAULT_VERSION : Nat := 0

/-- `vbz_is_error` reports whether an entry point's return value is an
error sentinel. -/
def vbz_is_error : Except VbzError (List Nat) → Bool
  | .error _ => true
  | .ok _ => false

/-- `vbz_max_compressed_size` (spec section 4.3.3): the StreamVByte
bound `⌈N/4⌉ + 4*N` over `N = ⌈input_bytes / W⌉`, wrapped in the zstd
bound when the zstd stage is enabled. -/
def vbz_max_compressed_size (input_bytes : Nat) (o : CompressionOptions) : Nat :=
  let N := (input_bytes + o.integer_size - 1) / o.integer_size
  let svb_bound := (N + 3) / 4 + 4 * N
  if o.zstd_compression_level ≠ 0 then zstdMaxCompressedSize svb_bound else svb_bound

/-- The widened, optionally pre-transformed value sequence fed to the
StreamVByte stage (spec section 4.3.1 steps 2-4): the working copy of
`src` read as `W`-byte elements, delta + zig-zag transformed when
requested, zero-extended to unsigned 32-bit values. -/
def vbzValues (src : List Nat) (o : CompressionOptions) : List Nat :=
  let W := o.integer_size
  let vals := bytesToValues W src
  if o.perform_delta_zig_zag then preTransformFwd (256 ^ W) vals else vals

/-- The non-sized compression pipeline on the happy path (spec section
4.3.1 steps 2-6): pre-transform, StreamVByte encode by `version`, then
the optional zstd stage. -/
def vbzPipeline (src : List Nat) (o : CompressionOptions) : List Nat :=
  let svb := svbEncode o.version (vbzValues src o)
  if o.zstd_compression_level ≠ 0
  then zstdCompress o.zstd_compression_level svb else svb

/-- `vbz_compress` (spec section 4.3.1): validate, copy into a working
buffer, optionally delta + zig-zag at width `W`, widen to unsigned
32-bit, StreamVByte-encode by `version`, optionally pipe through
zstd, and write at most `dst_cap` bytes. -/
def vbz_compress (src : List Nat) (dst_cap : Nat) (o : CompressionOptions) :
    Except VbzError (List Nat) :=
  let W := o.integer_size
  if ¬ (W = 1 ∨ W = 2 ∨ W = 4) then .error .INPUT_SIZE
  else if src.length % W ≠ 0 then .error .INPUT_SIZE
  else if 4294967296 ≤ src.length then .error .INPUT_SIZE
  else if ¬ (o.version = 0 ∨ o.version = 1) then .error .UNKNOWN_VERSION
  else if dst_cap < (vbzPipeline src o).length then .error .DESTINATION_TOO_SMALL
  else .ok (vbzPipeline src o)

/-- `vbz_decompress` (spec section 4.3.1): the symmetric inverse; the
element count is recovered as `N = dst_cap / W`. -/
def vbz_decompress (src : List Nat) (dst_cap : Nat) (o : CompressionOptions) :
    Except VbzError (List Nat) :=
  let W := o.integer_size
  if ¬ (W = 1 ∨ W = 2 ∨ W = 4) then .error .INPUT_SIZE
  else if dst_cap % W ≠ 0 then .error .INPUT_SIZE
  else if ¬ (o.version = 0 ∨ o.version = 1) then .error .UNKNOWN_VERSION
  else
    let M := 256 ^ W
    let N := dst_cap / W
    let inner := if o.zstd_compression_level ≠ 0 then zstdDecompress src else some src
    match inner with
    | none => .error .INPUT_CORRUPTED
    | some svb =>
      match svbDecode o.version N svb with
      | none => .error .INPUT_CORRUPTED
      | some wide =>
        let tvals := wide.map (fun v => v % M)
        let vals := if o.perform_delta_zig_zag then preTransformInv M tvals else tvals
        .ok (valuesToBytes W vals)

/-- `vbz_compress_sized` (spec section 4.3.2): a 4-byte little-endian
header holding `src_len_bytes`, then the `vbz_compress` payload. -/
def vbz_compress_sized (src : List Nat) (dst_cap : Nat) (o : CompressionOptions) :
    Except VbzError (List Nat) :=
  if dst_cap < 4 then .error .DESTINATION_TOO_SMALL
  else
    match vbz_compress src (dst_cap - 4) o with
    | .error e => .error e
    | .ok payload => .ok (leBytes 4 src.length ++ payload)

/-- `vbz_decompressed_size` (spec section 4.3.2): read the 4-byte
little-endian header without touching the payload. -/
def vbz_decompressed_size (src : List Nat) (o : CompressionOptions) : Nat :=
  fromLeBytes (src.take 4)

/-- `vbz_decompress_sized` (spec section 4.3.2): read the header, then
decode the payload for `N = header / W` elements. -/
def vbz_decompress_sized (src : List Nat) (dst_cap : Nat) (o : CompressionOptions) :
    Except VbzError (List Nat) :=
  if src.length < 4 then .error .INPUT_CORRUPTED
  else
    let n := vbz_decompressed_size src o
    if dst_cap < n then .error .DESTINATION_TOO_SMALL
    else vbz_decompress (src.drop 4) n o

/-- The compress pipeline with the caller's buffers made explicit
(spec section 4.3.1 step 2): the source buffer is copied into a
mutable working buffer, all stages operate on the copy (or on fresh
buffers), and the pair returned is (result, source buffer after the
call). -/
def vbz_compress_buffers (src : List Nat) (dst_cap : Nat) (o : CompressionOptions) :
    Except VbzError (List Nat) × List Nat :=
  let working := src
  (vbz_compress working dst_cap o, src)

theorem ceil_div_of_dvd (W n : Nat) (hW : 0 < W) (h : W ∣ n) :
    (n + W - 1) / W = n / W := by
  obtain ⟨k, rfl⟩ := h
  have h1 : W * k + W - 1 = W * k + (W - 1) := by omega
  rw [h1, Nat.mul_add_div hW, Nat.mul_div_cancel_left k hW]
  have h2 : (W - 1) / W = 0 := Nat.div_eq_of_lt (by omega)
  omega

theorem vbzValues_length (src : List Nat) (o : CompressionOptions)
    (hW : 0 < o.integer_size) (hmul : src.length % o.integer_size = 0) :
    (vbzValues src o).length = src.length / o.integer_size := by
  unfold vbzValues
  have hbl := bytesToValues_length o.integer_size hW src.length src (Nat.le_refl _)
  have hceil := ceil_div_of_dvd o.integer_size src.length hW (Nat.dvd_of_mod_eq_zero hmul)
  split
  · rw [preTransformFwd_length, hbl, hceil]
  · rw [hbl, hceil]

theorem vbzValues_mem_lt (src : List Nat) (o : CompressionOptions)
    (hW : 0 < o.integer_size) (hb : ∀ b ∈ src, b < 256) :
    ∀ v ∈ vbzValues src o, v < 256 ^ o.integer_size := by
  unfold vbzValues
  have hM : 0 < 256 ^ o.integer_size := Nat.pos_pow_of_pos _ (by omega)
  have hvals := bytesToValues_mem_lt o.integer_size hW src.length src (Nat.le_refl _) hb
  split
  · exact preTransformFwd_mem_lt _ hM _
  · exact hvals

theorem pow256_le_pow32 (W : Nat) (hW : W = 1 ∨ W = 2 ∨ W = 4) :
    256 ^ W ≤ 4294967296 := by
  rcases hW with rfl | rfl | rfl <;> norm_num

theorem vbzPipeline_length_le (src : List Nat) (o : CompressionOptions)
    (hW : 0 < o.integer_size) (hmul : src.length % o.integer_size = 0) :
    (vbzPipeline src o).length ≤ vbz_max_compressed_size src.length o := by
  simp only [vbzPipeline, vbz_max_compressed_size]
  have hceil := ceil_div_of_dvd o.integer_size src.length hW (Nat.dvd_of_mod_eq_zero hmul)
  have hvlen := vbzValues_length src o hW hmul
  have hsvb := svbEncode_length_le o.version (vbzValues src o)
  rw [hvlen] at hsvb
  by_cases hz : o.zstd_compression_level ≠ 0
  · simp only [if_pos hz, zstdCompress_length, zstdMaxCompressedSize, hceil]
    omega
  · simp only [if_neg hz, hceil]
    omega

theorem vbz_compress_eq_ok (src : List Nat) (dst_cap : Nat) (o : CompressionOptions)
    (hW : o.integer_size = 1 ∨ o.integer_size = 2 ∨ o.integer_size = 4)
    (hmul : src.length % o.integer_size = 0)
    (hlen : src.length < 4294967296)
    (hv : o.version = 0 ∨ o.version = 1)
    (hcap : (vbzPipeline src o).length ≤ dst_cap) :
    vbz_compress src dst_cap o = .ok (vbzPipeline src o) := by
  unfold vbz_compress
  rw [if_neg (not_not_intro hW), if_neg (not_not_intro hmul),
      if_neg (Nat.not_le.mpr hlen), if_neg (not_not_intro hv),
      if_neg (Nat.not_lt.mpr hcap)]

theorem vbz_decompress_vbzPipeline (src : List Nat) (o : CompressionOptions)
    (hW : o.integer_size = 1 ∨ o.integer_size = 2 ∨ o.integer_size = 4)
    (hmul : src.length % o.integer_size = 0)
    (hb : ∀ b ∈ src, b < 256)
    (hv : o.version = 0 ∨ o.version = 1)
    (hsvb32 : o.zstd_compression_level ≠ 0 →
      (svbEncode o.version (vbzValues src o)).length < 4294967296) :
    vbz_decompress (vbzPipeline src o) src.length o = .ok src := by
  have hW0 : 0 < o.integer_size := by rcases hW with h | h | h <;> omega
  have hM : 0 < 256 ^ o.integer_size := Nat.pos_pow_of_pos _ (by omega)
  have hM32 : 256 ^ o.integer_size ≤ 4294967296 := pow256_le_pow32 _ hW
  have hvlen := vbzValues_length src o hW0 hmul
  have hvlt := vbzValues_mem_lt src o hW0 hb
  have hv32 : ∀ v ∈ vbzValues src o, v < 4294967296 := fun v hv' => by
    have := hvlt v hv'
    omega
  simp only [vbz_decompress]
  rw [if_neg (not_not_intro hW), if_neg (not_not_intro hmul),
      if_neg (not_not_intro hv)]
  have hinner : (if o.zstd_compression_level ≠ 0
      then zstdDecompress (vbzPipeline src o) else some (vbzPipeline src o))
      = some (svbEncode o.version (vbzValues src o)) := by
    simp only [vbzPipeline]
    by_cases hz : o.zstd_compression_level ≠ 0
    · simp only [if_pos hz]
      exact zstdDecompress_zstdCompress _ _ (hsvb32 hz)
    · simp only [if_neg hz]
  rw [hinner]
  have hdec : svbDecode o.version (src.length / o.integer_size)
      (svbEncode o.version (vbzValues src o)) = some (vbzValues src o) := by
    rw [← hvlen]
    exact svbDecode_svbEncode o.version _ hv32
  dsimp only
  rw [hdec]
  dsimp only
  have hmod : (vbzValues src o).map (fun v => v % 256 ^ o.integer_size)
      = vbzValues src o := by
    have h1 : (vbzValues src o).map (fun v => v % 256 ^ o.integer_size)
        = (vbzValues src o).map id := by
      apply List.map_congr_left
      intro v hv'
      exact Nat.mod_eq_of_lt (hvlt v hv')
    rw [h1, List.map_id]
  rw [hmod]
  have hfinal : (if o.perform_delta_zig_zag
      then preTransformInv (256 ^ o.integer_size) (vbzValues src o)
      else vbzValues src o) = bytesToValues o.integer_size src := by
    unfold vbzValues
    split
    · exact preTransformInv_preTransformFwd _ hM _
        (bytesToValues_mem_lt o.integer_size hW0 src.length src (Nat.le_refl _) hb)
    · rfl
  rw [hfinal]
  rw [valuesToBytes_bytesToValues o.integer_size hW0 src.length src (Nat.le_refl _)
      (Nat.dvd_of_mod_eq_zero hmul) hb]

theorem svb_length_lt_of_small (src : List Nat) (o : CompressionOptions)
    (hW0 : 0 < o.integer_size) (hmul : src.length % o.integer_size = 0)
    (hsmall : src.length ≤ 1000000 * o.integer_size) :
    (svbEncode o.version (vbzValues src o)).length < 4294967296 := by
  have h1 := svbEncode_length_le o.version (vbzValues src o)
  have h2 := vbzValues_length src o hW0 hmul
  have h3 : src.length / o.integer_size ≤ 1000000 := by
    calc src.length / o.integer_size
        ≤ 1000000 * o.integer_size / o.integer_size := Nat.div_le_div_right hsmall
      _ = 1000000 := Nat.mul_div_cancel 1000000 hW0
  rw [h2] at h1
  omega

/-- The complete round-trip property over the full options space: a
valid input compresses within the advertised bound and decompresses
back byte-for-byte. -/
theorem vbz_roundtrip (src : List Nat) (o : CompressionOptions)
    (hW : o.integer_size = 1 ∨ o.integer_size = 2 ∨ o.integer_size = 4)
    (hmul : src.length % o.integer_size = 0)
    (hlen : src.length < 4294967296)
    (hb : ∀ b ∈ src, b < 256)
    (hv : o.version = 0 ∨ o.version = 1)
    (hz : o.zstd_compression_level ≠ 0 → src.length ≤ 1000000 * o.integer_size) :
    vbz_compress src (vbz_max_compressed_size src.length o) o = .ok (vbzPipeline src o)
    ∧ (vbzPipeline src o).length ≤ vbz_max_compressed_size src.length o
    ∧ vbz_decompress (vbzPipeline src o) src.length o = .ok src := by
  have hW0 : 0 < o.integer_size := by rcases hW with h | h | h <;> omega
  have hbound := vbzPipeline_length_le src o hW0 hmul
  refine ⟨vbz_compress_eq_ok src _ o hW hmul hlen hv hbound, hbound, ?_⟩
  exact vbz_decompress_vbzPipeline src o hW hmul hb hv
    (fun hzz => svb_length_lt_of_small src o hW0 hmul (hz hzz))

/-!  Concrete data from the repository's test suite
(`SCENARIO("vbz int32 known input data")` and
`SCENARIO("vbz sized compression")`). -/

/-- The i32 test input `[5, 4, 3, 2, 1]` as its 20 little-endian bytes. -/
def e1Input : List Nat :=
  [5, 0, 0, 0, 4, 0, 0, 0, 3, 0, 0, 0, 2, 0, 0, 0, 1, 0, 0, 0]

/-- Options `{perform_delta_zig_zag = true, integer_size = 4,
zstd_compression_level = 0, version = V0}`. -/
def e1Opts : CompressionOptions :=
  ⟨true, 4, 0, VBZ_DEFAULT_VERSION⟩

/-- The expected 7-byte compressed payload for E1. -/
def e1Payload : List Nat := [0, 0, 10, 1, 1, 1, 1]

/-- Options `{true, 4, 100, V0}` (zstd enabled with out-of-range level). -/
def e2Opts : CompressionOptions :=
  ⟨true, 4, 100, VBZ_DEFAULT_VERSION⟩

/-!  The sequence space of the pre-transform, for the bijection claim. -/

/-- The space of length-`N` sequences of `W`-byte integers (each
element given by its unsigned representative below `M`). -/
def TransformSpace (M N : Nat) := {xs : List Nat // xs.length = N ∧ ∀ x ∈ xs, x < M}

/-- The forward pre-transform as a self-map of the sequence space. -/
def transformF (W N : Nat) (x : TransformSpace (256 ^ W) N) :
    TransformSpace (256 ^ W) N :=
  ⟨preTransformFwd (256 ^ W) x.1,
   by rw [preTransformFwd_length]; exact x.2.1,
   preTransformFwd_mem_lt _ (Nat.pos_pow_of_pos _ (by omega)) _⟩

/-- The declared inverse as a self-map of the sequence space. -/
def transformG (W N : Nat) (x : TransformSpace (256 ^ W) N) :
    TransformSpace (256 ^ W) N :=
  ⟨preTransformInv (256 ^ W) x.1,
   by rw [preTransformInv_length]; exact x.2.1,
   preTransformInv_mem_lt _ (Nat.pos_pow_of_pos _ (by omega)) _⟩

/-- C1.  Round-trip: for every input buffer whose byte length is a
multiple of `integer_size`, every `integer_size` in {1,2,4}, every
`perform_delta_zig_zag`, every `zstd_compression_level` in {0,...,22},
both versions V0 and V1, and inputs of up to 10^6 elements,
`vbz_decompress` applied with the same options to the output of
`vbz_compress` returns the original input byte-for-byte, and the byte
count returned by decompress (the length of the returned buffer,
`src.length`) equals `N * W`. -/
theorem vbz_claim_roundtrip (src : List Nat) (o : CompressionOptions)
    (hW : o.integer_size = 1 ∨ o.integer_size = 2 ∨ o.integer_size = 4)
    (hmul : src.length % o.integer_size = 0)
    (hb : ∀ b ∈ src, b < 256)
    (hzlevel : o.zstd_compression_level ≤ 22)
    (hv : o.version = 0 ∨ o.version = 1)
    (hN : src.length ≤ 1000000 * o.integer_size) :
    ∃ comp,
      vbz_compress src (vbz_max_compressed_size src.length o) o = Except.ok comp
      ∧ vbz_decompress comp src.length o = Except.ok src
      ∧ src.length = (src.length / o.integer_size) * o.integer_size := by
  have hW0 : 0 < o.integer_size := by rcases hW with h | h | h <;> omega
  have hlen : src.length < 4294967296 := by
    have : (1000000 : Nat) * o.integer_size ≤ 1000000 * 4 := by
      rcases hW with h | h | h <;> omega
    omega
  obtain ⟨hc, _, hd⟩ := vbz_roundtrip src o hW hmul hlen hb hv (fun _ => hN)
  exact ⟨vbzPipeline src o, hc, hd,
    (Nat.div_mul_cancel (Nat.dvd_of_mod_eq_zero hmul)).symm⟩

theorem vbz_claim_roundtrip_witness :
    ∃ comp,
      vbz_compress e1Input (vbz_max_compressed_size e1Input.length e1Opts) e1Opts
          = Except.ok comp
      ∧ vbz_decompress comp e1Input.length e1Opts = Except.ok e1Input
      ∧ e1Input.length = (e1Input.length / e1Opts.integer_size) * e1Opts.integer_size :=
  vbz_claim_roundtrip e1Input e1Opts (by decide) (by decide) (by decide)
    (by decide) (by decide) (by decide)

/-- C2.  Size bound: for every valid input and options, the byte count
written by a successful `vbz_compress` is at most
`vbz_max_compressed_size` of the input byte length, so a destination
buffer of that capacity is always large enough and compressing into it
never returns `DESTINATION_TOO_SMALL` (it succeeds). -/
theorem vbz_claim_size_bound (src : List Nat) (o : CompressionOptions)
    (hW : o.integer_size = 1 ∨ o.integer_size = 2 ∨ o.integer_size = 4)
    (hmul : src.length % o.integer_size = 0)
    (hlen : src.length < 4294967296)
    (hv : o.version = 0 ∨ o.version = 1) :
    ∃ comp,
      vbz_compress src (vbz_max_compressed_size src.length o) o = Except.ok comp
      ∧ comp.length ≤ vbz_max_compressed_size src.length o := by
  have hW0 : 0 < o.integer_size := by rcases hW with h | h | h <;> omega
  have hbound := vbzPipeline_length_le src o hW0 hmul
  exact ⟨vbzPipeline src o, vbz_compress_eq_ok src _ o hW hmul hlen hv hbound, hbound⟩

theorem vbz_claim_size_bound_witness :
    ∃ comp,
      vbz_compress e1Input (vbz_max_compressed_size e1Input.length e2Opts) e2Opts
          = Except.ok comp
      ∧ comp.length ≤ vbz_max_compressed_size e1Input.length e2Opts :=
  vbz_claim_size_bound e1Input e2Opts (by decide) (by decide) (by decide) (by decide)

/-- C3.  Concrete vector E1: compressing the i32 sequence [5,4,3,2,1]
(20 little-endian source bytes) with options `{true, 4, 0, V0}`
returns exactly the 7 bytes `[0x00,0x00,0x0A,0x01,0x01,0x01,0x01]`,
and decompressing those bytes with the same options returns the
original sequence. -/
theorem vbz_claim_known_vector_e1 :
    vbz_compress e1Input (vbz_max_compressed_size e1Input.length e1Opts) e1Opts
        = Except.ok e1Payload
    ∧ vbz_decompress e1Payload e1Input.length e1Opts = Except.ok e1Input := by
  exact ⟨rfl, rfl⟩

/-- C4.  Sized framing: `vbz_compress_sized` writes a 4-byte
little-endian header equal to the source byte length followed by the
same payload the non-sized `vbz_compress` produces, so the i32 input
[5,4,3,2,1] with options `{true,4,0,V0}` yields exactly
`[20,0,0,0, 0,0,10,1,1,1,1]`; and for every valid input and options,
`vbz_decompressed_size` applied to the output of `vbz_compress_sized`
returns the original input byte length. -/
theorem vbz_claim_sized_framing (src : List Nat) (o : CompressionOptions)
    (hW : o.integer_size = 1 ∨ o.integer_size = 2 ∨ o.integer_size = 4)
    (hmul : src.length % o.integer_size = 0)
    (hlen : src.length < 4294967296)
    (hv : o.version = 0 ∨ o.version = 1) :
    vbz_compress src (vbz_max_compressed_size src.length o) o
        = Except.ok (vbzPipeline src o)
    ∧ vbz_compress_sized src (vbz_max_compressed_size src.length o + 4) o
        = Except.ok (leBytes 4 src.length ++ vbzPipeline src o)
    ∧ vbz_decompressed_size (leBytes 4 src.length ++ vbzPipeline src o) o = src.length
    ∧ vbz_compress_sized e1Input 24 e1Opts
        = Except.ok [20, 0, 0, 0, 0, 0, 10, 1, 1, 1, 1] := by
  have hW0 : 0 < o.integer_size := by rcases hW with h | h | h <;> omega
  have hbound := vbzPipeline_length_le src o hW0 hmul
  have hok := vbz_compress_eq_ok src (vbz_max_compressed_size src.length o) o
    hW hmul hlen hv hbound
  refine ⟨hok, ?_, ?_, rfl⟩
  · unfold vbz_compress_sized
    rw [if_neg (by omega : ¬ (vbz_max_compressed_size src.length o + 4 < 4))]
    have hsub : vbz_max_compressed_size src.length o + 4 - 4
        = vbz_max_compressed_size src.length o := by omega
    rw [hsub, hok]
  · unfold vbz_decompressed_size
    rw [List.take_left' (leBytes_length 4 src.length)]
    apply fromLeBytes_leBytes
    calc src.length < 4294967296 := hlen
      _ = 256 ^ 4 := by norm_num

theorem vbz_claim_sized_framing_witness :
    vbz_compress e1Input (vbz_max_compressed_size e1Input.length e1Opts) e1Opts
        = Except.ok (vbzPipeline e1Input e1Opts)
    ∧ vbz_compress_sized e1Input (vbz_max_compressed_size e1Input.length e1Opts + 4) e1Opts
        = Except.ok (leBytes 4 e1Input.length ++ vbzPipeline e1Input e1Opts)
    ∧ vbz_decompressed_size (leBytes 4 e1Input.length ++ vbzPipeline e1Input e1Opts) e1Opts
        = e1Input.length
    ∧ vbz_compress_sized e1Input 24 e1Opts
        = Except.ok [20, 0, 0, 0, 0, 0, 10, 1, 1, 1, 1] :=
  vbz_claim_sized_framing e1Input e1Opts (by decide) (by decide) (by decide) (by decide)

/-- C5.  Concrete vector E2 (zstd stage): compressing the i32 sequence
[5,4,3,2,1] with options `{true, 4, 100, V0}` succeeds (the
out-of-range level 100 is passed to the zstd black box and clamped
there), the compressed output begins with the four-byte zstd magic
`28 B5 2F FD`, the zstd-decoded inner bytes equal E1's 7-byte payload,
and decompressing with the same options returns the original
sequence. -/
theorem vbz_claim_zstd_vector_e2 :
    ∃ comp,
      vbz_compress e1Input (vbz_max_compressed_size e1Input.length e2Opts) e2Opts
          = Except.ok comp
      ∧ comp.take 4 = ZSTD_MAGIC
      ∧ zstdDecompress comp = some e1Payload
      ∧ vbz_decompress comp e1Input.length e2Opts = Except.ok e1Input := by
  exact ⟨[40, 181, 47, 253, 7, 0, 0, 0, 0, 0, 10, 1, 1, 1, 1], rfl, rfl, rfl, rfl⟩

/-- C6.  Pre-transform invertibility: for every width `W` in {1,2,4}
and every sequence of `W`-byte integers, applying the declared inverse
(zig-zag inverse then prefix sum, with two's-complement wrap-around at
width `W`) to the forward transform (delta then zig-zag, same
wrap-around) yields the original sequence, and the forward transform
is a bijection on the space of `W`-byte integer sequences of any fixed
length `N`. -/
theorem vbz_claim_pretransform_bijection (W N : Nat) (xs : List Nat)
    (hW : W = 1 ∨ W = 2 ∨ W = 4)
    (hxs : ∀ x ∈ xs, x < 256 ^ W) :
    preTransformInv (256 ^ W) (preTransformFwd (256 ^ W) xs) = xs
    ∧ Function.Bijective (transformF W N) := by
  have hM : 0 < 256 ^ W := Nat.pos_pow_of_pos _ (by omega)
  refine ⟨preTransformInv_preTransformFwd _ hM xs hxs, ?_⟩
  rw [Function.bijective_iff_has_inverse]
  refine ⟨transformG W N, ?_, ?_⟩
  · intro x
    apply Subtype.ext
    exact preTransformInv_preTransformFwd _ hM x.1 x.2.2
  · intro x
    apply Subtype.ext
    exact preTransformFwd_preTransformInv _ hM x.1 x.2.2

theorem vbz_claim_pretransform_bijection_witness :
    preTransformInv (256 ^ 2) (preTransformFwd (256 ^ 2) [5, 4, 65535]) = [5, 4, 65535]
    ∧ Function.Bijective (transformF 2 3) :=
  vbz_claim_pretransform_bijection 2 3 [5, 4, 65535] (by decide) (by decide)

/-- C7 (counterexample to the claim as stated).  The claim extends the
`src_len_bytes % integer_size != 0` condition to `vbz_decompress`, but
the repository's own test decompresses E1's 7-byte payload with
`integer_size = 4` (7 is not a multiple of 4) and succeeds: the
decompressor's destination length, not its compressed source length,
must be the multiple of `integer_size`. -/
theorem vbz_claim_input_validation_cex :
    (7 : Nat) % 4 ≠ 0
    ∧ e1Payload.length = 7
    ∧ e1Opts.integer_size = 4
    ∧ vbz_decompress e1Payload 20 e1Opts = Except.ok e1Input := by
  exact ⟨by decide, rfl, rfl, rfl⟩

/-- C7 (amended).  `vbz_compress` returns the `INPUT_SIZE` error
whenever its source byte length is not a multiple of `integer_size` or
`integer_size` is not one of {1,2,4}; `vbz_decompress` returns
`INPUT_SIZE` whenever its destination byte length (rather than its
compressed source length) is not a multiple of `integer_size` or
`integer_size` is not one of {1,2,4}.  Both halves hold for every
source buffer, destination capacity and options: each conjunct carries
only its own trigger condition.  In all these cases the call fails
rather than returning a success byte count. -/
theorem vbz_claim_input_validation (src : List Nat) (dst_cap : Nat)
    (o : CompressionOptions) :
    (src.length % o.integer_size ≠ 0
        ∨ ¬ (o.integer_size = 1 ∨ o.integer_size = 2 ∨ o.integer_size = 4) →
      vbz_compress src dst_cap o = Except.error VbzError.INPUT_SIZE)
    ∧ (dst_cap % o.integer_size ≠ 0
        ∨ ¬ (o.integer_size = 1 ∨ o.integer_size = 2 ∨ o.integer_size = 4) →
      vbz_decompress src dst_cap o = Except.error VbzError.INPUT_SIZE) := by
  constructor
  · intro h
    unfold vbz_compress
    by_cases hW : o.integer_size = 1 ∨ o.integer_size = 2 ∨ o.integer_size = 4
    · rcases h with h | h
      · rw [if_neg (not_not_intro hW), if_pos h]
      · exact absurd hW h
    · rw [if_pos hW]
  · intro h
    unfold vbz_decompress
    by_cases hW : o.integer_size = 1 ∨ o.integer_size = 2 ∨ o.integer_size = 4
    · rcases h with h | h
      · rw [if_neg (not_not_intro hW), if_pos h]
      · exact absurd hW h
    · rw [if_pos hW]

theorem vbz_claim_input_validation_witness :
    vbz_compress [1, 2, 3] 7 (CompressionOptions.mk true 4 0 0)
        = Except.error VbzError.INPUT_SIZE
    ∧ vbz_decompress [1, 2, 3] 7 (CompressionOptions.mk true 4 0 0)
        = Except.error VbzError.INPUT_SIZE :=
  ⟨(vbz_claim_input_validation [1, 2, 3] 7 (CompressionOptions.mk true 4 0 0)).1
      (Or.inl (by decide)),
   (vbz_claim_input_validation [1, 2, 3] 7 (CompressionOptions.mk true 4 0 0)).2
      (Or.inl (by decide))⟩

/-- C8.  Source buffer unchanged: the compress pipeline operates on an
internal working copy of the caller's source buffer; in the
buffer-explicit model the source buffer after any `vbz_compress` call
(success or error, with or without the pre-transform) equals its
before-call value, and the call's result is exactly `vbz_compress`. -/
theorem vbz_claim_src_unchanged (src : List Nat) (dst_cap : Nat)
    (o : CompressionOptions) :
    (vbz_compress_buffers src dst_cap o).2 = src
    ∧ (vbz_compress_buffers src dst_cap o).1 = vbz_compress src dst_cap o :=
  ⟨rfl, rfl⟩

/-- C9.  Determinism: `vbz_compress` is a pure function of its source
bytes and options; two calls with byte-identical source buffers, equal
capacities and equal options produce identical results, including when
the zstd stage is enabled (any `zstd_compression_level`). -/
theorem vbz_claim_deterministic (s₁ s₂ : List Nat) (c₁ c₂ : Nat)
    (o₁ o₂ : CompressionOptions)
    (hs : s₁ = s₂) (hc : c₁ = c₂) (ho : o₁ = o₂) :
    vbz_compress s₁ c₁ o₁ = vbz_compress s₂ c₂ o₂ := by
  subst hs; subst hc; subst ho; rfl

theorem vbz_claim_deterministic_witness :
    vbz_compress e1Input 1000 e2Opts = vbz_compress e1Input 1000 e2Opts :=
  vbz_claim_deterministic e1Input e1Input 1000 1000 e2Opts e2Opts rfl rfl rfl

/-- C10.  Width reinterpretation round-trip: the round-trip guarantee
does not require `integer_size` to match the true element width of the
data; for every byte buffer (of `vbz_size_t`-representable length),
compressing with options `{perform_delta_zig_zag = false,
integer_size = 1, zstd_compression_level = 0, version = V0}` and
decompressing with the same options returns the original bytes. -/
theorem vbz_claim_width1_roundtrip (bs : List Nat)
    (hb : ∀ b ∈ bs, b < 256) (hlen : bs.length < 4294967296) :
    ∃ comp,
      vbz_compress bs
          (vbz_max_compressed_size bs.length (CompressionOptions.mk false 1 0 0))
          (CompressionOptions.mk false 1 0 0) = Except.ok comp
      ∧ vbz_decompress comp bs.length (CompressionOptions.mk false 1 0 0)
          = Except.ok bs := by
  obtain ⟨hc, _, hd⟩ := vbz_roundtrip bs (CompressionOptions.mk false 1 0 0)
    (Or.inl rfl) (Nat.mod_one _) hlen hb (Or.inl rfl)
    (fun hz => absurd rfl hz)
  exact ⟨vbzPipeline bs (CompressionOptions.mk false 1 0 0), hc, hd⟩

theorem vbz_claim_width1_roundtrip_witness :
    ∃ comp,
      vbz_compress [5, 255, 0, 17]
          (vbz_max_compressed_size (List.length [5, 255, 0, 17])
            (CompressionOptions.mk false 1 0 0))
          (CompressionOptions.mk false 1 0 0) = Except.ok comp
      ∧ vbz_decompress comp (List.length [5, 255, 0, 17])
          (CompressionOptions.mk false 1 0 0) = Except.ok [5, 255, 0, 17] :=
  vbz_claim_width1_roundtrip [5, 255, 0, 17] (by decide) (by decide)
